import Mathlib

/-!
Shallow embedding of the envsubst substitution library (src/lib.rs).

Strings are modelled as `List Char`.  The `HashMap` of variables is modelled
as an association list `List (List Char × List Char)`; the order of the list
represents one iteration order of the map.
-/

set_option autoImplicit false

namespace Envsubst

/-- The single quote character (ASCII 39), used in error messages. -/
def quoteChar : Char := Char.ofNat 39

/-- The three forbidden characters checked by `validate`, in source order:
dollar, open brace, close brace. -/
def forbiddenChars : List Char := ['$', '\x7b', '\x7d']

/-- Library error: wrapper around the message string, embedding
`pub struct Error(String)`. -/
structure Error where
  msg : List Char
deriving DecidableEq

/-- First index at which `p` occurs as a contiguous substring of `s`
(embedding of `str::find` for the pattern `p`); `none` if no occurrence. -/
def findSub (p : List Char) : List Char → Option Nat
  | [] => if p = [] then some 0 else none
  | c :: t => if p.isPrefixOf (c :: t) then some 0 else (findSub p t).map Nat.succ

/-- Embedding of `str::contains`: whether pattern `p` occurs in `s`. -/
def containsSub (s p : List Char) : Bool := (findSub p s).isSome

/-- The message built by `validate`:
`variable <kind> <q><value><q> contains forbidden character <q><c><q>`
where `<q>` is a single quote. -/
def errMsg (kind value : List Char) (c : Char) : List Char :=
  "variable ".data ++ kind ++ " ".data ++ [quoteChar] ++ value ++ [quoteChar] ++
    " contains forbidden character ".data ++ [quoteChar] ++ [c] ++ [quoteChar]

/-- Role label for keys. -/
def keyKind : List Char := "key".data

/-- Role label for values. -/
def valueKind : List Char := "value".data

/-- Embedding of `validate`: scan the forbidden characters in source order and
fail on the first one contained in `value`. -/
def validate (value kind : List Char) : Except Error Unit :=
  match forbiddenChars.find? (fun c => containsSub value [c]) with
  | some c => .error ⟨errMsg kind value c⟩
  | none => .ok ()

/-- The search token built by `substitute` for key `k`: a dollar, an open
brace, the key, a close brace. -/
def fromToken (k : List Char) : List Char := '$' :: '\x7b' :: (k ++ ['\x7d'])

/-- Fuel-indexed embedding of `str::replace`: replace every non-overlapping
occurrence of `p` in the subject by `v`, scanning left to right.  The fuel is
always instantiated with the subject length, which suffices.  The guard
`p ≠ []` is immaterial for this library: every pattern passed by `substitute`
(a `fromToken`) is nonempty. -/
def replaceFuel (p v : List Char) : Nat → List Char → List Char
  | _, [] => []
  | 0, s => s
  | Nat.succ n, c :: t =>
    if p.isPrefixOf (c :: t) ∧ p ≠ [] then v ++ replaceFuel p v n (t.drop (p.length - 1))
    else c :: replaceFuel p v n t

/-- Embedding of `str::replace`. -/
def replaceStr (p v s : List Char) : List Char := replaceFuel p v s.length s

/-- The loop of `substitute`: validate each key and value, then replace the
key token by the value, threading the output.  The `Except` bind aborts the
loop on the first error, like the source `?` operator. -/
def substGo : List (List Char × List Char) → List Char → Except Error (List Char)
  | [], out => .ok out
  | (k, v) :: rest, out =>
    (validate k keyKind).bind fun _ =>
      (validate v valueKind).bind fun _ =>
        substGo rest (replaceStr (fromToken k) v out)

/-- Embedding of `substitute`. -/
def substitute (template : List Char) (vars : List (List Char × List Char)) :
    Except Error (List Char) :=
  if vars.isEmpty then .ok template else substGo vars template

/-- Embedding of `is_templated`. -/
def is_templated (input : List Char) : Bool :=
  match findSub ['$', '\x7b'] input, findSub ['\x7d'] input with
  | some s, some e => decide (s < e)
  | _, _ => false

/-- Embedding of `validate_vars`. -/
def validate_vars : List (List Char × List Char) → Except Error Unit
  | [] => .ok ()
  | (k, v) :: rest =>
    (validate k keyKind).bind fun _ =>
      (validate v valueKind).bind fun _ => validate_vars rest

/-- A string contains none of the forbidden characters. -/
def NoForbidden (s : List Char) : Prop := ∀ c ∈ forbiddenChars, c ∉ s

instance : DecidablePred NoForbidden := fun s => by
  unfold NoForbidden; infer_instance

/-- Every key and every value of the mapping is free of forbidden
characters. -/
def ValidMap (l : List (List Char × List Char)) : Prop :=
  ∀ kv ∈ l, NoForbidden kv.1 ∧ NoForbidden kv.2

instance : DecidablePred ValidMap := fun l => by
  unfold ValidMap; infer_instance

/-! ### Equation lemmas for the fuel-indexed replace -/

theorem replaceFuel_nil (p v : List Char) (n : Nat) : replaceFuel p v n [] = [] := by
  cases n <;> rfl

theorem replaceFuel_congr (p v : List Char) :
    ∀ n m s, s.length ≤ n → s.length ≤ m → replaceFuel p v n s = replaceFuel p v m s := by
  intro n
  induction n with
  | zero =>
    intro m s hn _
    have hs : s = [] := List.eq_nil_of_length_eq_zero (Nat.le_zero.mp hn)
    subst hs
    rw [replaceFuel_nil, replaceFuel_nil]
  | succ n ih =>
    intro m s hn hm
    cases s with
    | nil => rw [replaceFuel_nil, replaceFuel_nil]
    | cons c t =>
      cases m with
      | zero => exact absurd hm (by simp)
      | succ m =>
        have hn' : t.length ≤ n := Nat.succ_le_succ_iff.mp (by simpa using hn)
        have hm' : t.length ≤ m := Nat.succ_le_succ_iff.mp (by simpa using hm)
        have hd : (t.drop (p.length - 1)).length ≤ t.length := by simp
        show (if p.isPrefixOf (c :: t) ∧ p ≠ [] then
                v ++ replaceFuel p v n (t.drop (p.length - 1))
              else c :: replaceFuel p v n t) =
            (if p.isPrefixOf (c :: t) ∧ p ≠ [] then
                v ++ replaceFuel p v m (t.drop (p.length - 1))
              else c :: replaceFuel p v m t)
        by_cases h : p.isPrefixOf (c :: t) ∧ p ≠ []
        · simp only [if_pos h]
          rw [ih m (t.drop (p.length - 1)) (le_trans hd hn') (le_trans hd hm')]
        · simp only [if_neg h]
          rw [ih m t hn' hm']

theorem replaceStr_nil (p v : List Char) : replaceStr p v [] = [] := rfl

theorem replaceStr_cons (p v : List Char) (c : Char) (t : List Char) :
    replaceStr p v (c :: t) =
      if p.isPrefixOf (c :: t) ∧ p ≠ [] then
        v ++ replaceStr p v (t.drop (p.length - 1))
      else c :: replaceStr p v t := by
  show (if p.isPrefixOf (c :: t) ∧ p ≠ [] then
          v ++ replaceFuel p v t.length (t.drop (p.length - 1))
        else c :: replaceFuel p v t.length t) = _
  rw [replaceFuel_congr p v t.length (t.drop (p.length - 1)).length (t.drop (p.length - 1))
      (by simp) le_rfl]
  rfl

/-! ### Specification of findSub and containsSub -/

theorem findSub_eq_none_iff (p : List Char) :
    ∀ s : List Char, findSub p s = none ↔ ∀ i, ¬ p.isPrefixOf (s.drop i) = true := by
  intro s
  induction s with
  | nil =>
    constructor
    · intro h i
      simp only [findSub] at h
      by_cases hp : p = []
      · simp [hp] at h
      · simp [List.drop_nil, hp]
    · intro h
      simp only [findSub]
      by_cases hp : p = []
      · exact absurd (by simp [hp, List.isPrefixOf]) (h 0)
      · simp [hp]
  | cons c t ih =>
    constructor
    · intro h i
      simp only [findSub] at h
      by_cases hp : p.isPrefixOf (c :: t) = true
      · simp [hp] at h
      · simp only [hp, if_neg, Bool.false_eq_true, if_false] at h
        cases i with
        | zero => simpa using hp
        | succ i =>
          have ht : findSub p t = none := by
            cases hft : findSub p t with
            | none => rfl
            | some k => rw [hft] at h; simp at h
          exact (ih.mp ht) i
    · intro h
      simp only [findSub]
      have h0 : ¬ p.isPrefixOf (c :: t) = true := by simpa using h 0
      simp only [h0, if_false, Bool.false_eq_true]
      have ht : findSub p t = none := ih.mpr (fun i => by simpa using h (i + 1))
      simp [ht]

theorem findSub_eq_some_iff (p : List Char) :
    ∀ (s : List Char) (i : Nat), findSub p s = some i ↔
      (p.isPrefixOf (s.drop i) = true ∧ ∀ j, j < i → ¬ p.isPrefixOf (s.drop j) = true) := by
  intro s
  induction s with
  | nil =>
    intro i
    simp only [findSub]
    by_cases hp : p = []
    · subst hp
      constructor
      · intro h
        simp at h
        subst h
        simp [List.isPrefixOf]
      · intro ⟨_, hmin⟩
        simp only [if_pos rfl]
        cases i with
        | zero => rfl
        | succ i => exact absurd (by simp [List.isPrefixOf]) (hmin 0 (Nat.succ_pos i))
    · constructor
      · intro h; simp [hp] at h
      · intro ⟨hpre, _⟩
        rw [List.drop_nil] at hpre
        cases p with
        | nil => exact absurd rfl hp
        | cons a q => simp [List.isPrefixOf] at hpre
  | cons c t ih =>
    intro i
    simp only [findSub]
    by_cases hp : p.isPrefixOf (c :: t) = true
    · simp only [hp, if_pos]
      constructor
      · intro h
        simp at h
        subst h
        exact ⟨by simpa using hp, fun j hj => absurd hj (Nat.not_lt_zero j)⟩
      · intro ⟨_, hmin⟩
        cases i with
        | zero => rfl
        | succ i => exact absurd (by simpa using hp) (hmin 0 (Nat.succ_pos i))
    · simp only [hp, Bool.false_eq_true, if_false]
      cases i with
      | zero =>
        constructor
        · intro h
          cases hft : findSub p t with
          | none => rw [hft] at h; simp at h
          | some k => rw [hft] at h; simp at h
        · intro ⟨hpre, _⟩
          exact absurd (by simpa using hpre) hp
      | succ i =>
        constructor
        · intro h
          have : findSub p t = some i := by
            cases hft : findSub p t with
            | none => rw [hft] at h; simp at h
            | some k =>
              rw [hft] at h
              have h2 : Nat.succ k = i + 1 := by simpa using h
              have h3 : k = i := by omega
              exact congrArg some h3
          have hspec := (ih i).mp this
          refine ⟨by simpa using hspec.1, fun j hj => ?_⟩
          cases j with
          | zero => simpa using hp
          | succ j =>
            have := hspec.2 j (Nat.lt_of_succ_lt_succ hj)
            simpa using this
        · intro ⟨hpre, hmin⟩
          have hspec : findSub p t = some i := (ih i).mpr
            ⟨by simpa using hpre, fun j hj => by simpa using hmin (j + 1) (Nat.succ_lt_succ hj)⟩
          simp [hspec]

theorem containsSub_singleton (c : Char) : ∀ s : List Char, containsSub s [c] = true ↔ c ∈ s := by
  intro s
  induction s with
  | nil => simp [containsSub, findSub]
  | cons d t ih =>
    simp only [containsSub, findSub]
    by_cases hd : c = d
    · subst hd
      have : ([c].isPrefixOf (c :: t)) = true := by simp [List.isPrefixOf]
      simp [this]
    · have hpre : ([c].isPrefixOf (d :: t)) = false := by
        simp [List.isPrefixOf]
        intro h
        exact absurd h hd
      rw [hpre]
      simp only [Bool.false_eq_true, if_false]
      simp only [containsSub] at ih
      cases hft : findSub [c] t with
      | none =>
        rw [hft] at ih
        simp only [Option.isSome_none, Bool.false_eq_true, false_iff] at ih
        simp [hd, ih]
      | some k =>
        rw [hft] at ih
        simp only [Option.isSome_some, true_iff] at ih
        simp [hd, ih]

/-! ### Validate and its characterization -/

theorem validate_ok_iff (x kind : List Char) : validate x kind = .ok () ↔ NoForbidden x := by
  unfold validate
  cases hf : forbiddenChars.find? (fun c => containsSub x [c]) with
  | some c =>
    constructor
    · intro h; exact absurd h (by simp)
    · intro hnf
      have hc := List.find?_some hf
      simp only at hc
      have hmem := List.mem_of_find?_eq_some hf
      exact absurd ((containsSub_singleton c x).mp hc) (hnf c hmem)
  | none =>
    constructor
    · intro _
      intro c hc hmemx
      have hnone : ¬ containsSub x [c] = true := by
        have := List.find?_eq_none.mp hf c hc
        simpa using this
      exact hnone ((containsSub_singleton c x).mpr hmemx)
    · intro _; rfl

theorem validate_error_elim (x kind : List Char) (e : Error)
    (h : validate x kind = .error e) :
    ∃ c ∈ forbiddenChars, c ∈ x ∧ e.msg = errMsg kind x c := by
  unfold validate at h
  cases hf : forbiddenChars.find? (fun c => containsSub x [c]) with
  | some c =>
    rw [hf] at h
    simp only [Except.error.injEq] at h
    refine ⟨c, List.mem_of_find?_eq_some hf, ?_, ?_⟩
    · have hc := List.find?_some hf
      simp only at hc
      exact (containsSub_singleton c x).mp hc
    · rw [← h]
  | none => rw [hf] at h; exact absurd h (by simp)

theorem validate_not_ok_of_not_noForbidden (x kind : List Char) (h : ¬ NoForbidden x) :
    ∃ e, validate x kind = .error e := by
  cases hv : validate x kind with
  | ok u => cases u; exact absurd ((validate_ok_iff x kind).mp hv) h
  | error e => exact ⟨e, rfl⟩

/-! ### substGo and validate_vars -/

theorem substGo_error_iff :
    ∀ (l : List (List Char × List Char)) (out : List Char) (e : Error),
      substGo l out = .error e ↔ validate_vars l = .error e := by
  intro l
  induction l with
  | nil => intro out e; simp [substGo, validate_vars]
  | cons kv rest ih =>
    intro out e
    obtain ⟨k, v⟩ := kv
    simp only [substGo, validate_vars]
    cases hk : validate k keyKind with
    | error e1 => simp [Except.bind]
    | ok u =>
      cases u
      simp only [Except.bind]
      cases hv : validate v valueKind with
      | error e2 => simp
      | ok u => cases u; exact ih (replaceStr (fromToken k) v out) e

theorem validate_vars_ok_iff :
    ∀ l : List (List Char × List Char), validate_vars l = .ok () ↔ ValidMap l := by
  intro l
  induction l with
  | nil => simp [validate_vars, ValidMap]
  | cons kv rest ih =>
    obtain ⟨k, v⟩ := kv
    simp only [validate_vars]
    constructor
    · intro h
      cases hk : validate k keyKind with
      | error e1 => rw [hk] at h; simp [Except.bind] at h
      | ok u =>
        cases u
        rw [hk] at h
        simp only [Except.bind] at h
        cases hv : validate v valueKind with
        | error e2 => rw [hv] at h; simp at h
        | ok u =>
          cases u
          rw [hv] at h
          intro kv hkv
          rcases List.mem_cons.mp hkv with heq | hmem
          · subst heq
            exact ⟨(validate_ok_iff k keyKind).mp hk, (validate_ok_iff v valueKind).mp hv⟩
          · exact (ih.mp h) kv hmem
    · intro h
      have hk : validate k keyKind = .ok () :=
        (validate_ok_iff k keyKind).mpr (h (k, v) (List.mem_cons_self _ _)).1
      have hv : validate v valueKind = .ok () :=
        (validate_ok_iff v valueKind).mpr (h (k, v) (List.mem_cons_self _ _)).2
      rw [hk]
      simp only [Except.bind]
      rw [hv]
      exact ih.mpr (fun kv hkv => h kv (List.mem_cons_of_mem _ hkv))

theorem not_validMap_iff (l : List (List Char × List Char)) :
    ¬ ValidMap l ↔ ∃ kv ∈ l, ¬ (NoForbidden kv.1 ∧ NoForbidden kv.2) := by
  unfold ValidMap
  simp only [not_forall, Classical.not_imp, exists_prop]

theorem validate_vars_error_exists (l : List (List Char × List Char)) :
    (∃ e, validate_vars l = .error e) ↔ ¬ ValidMap l := by
  cases hv : validate_vars l with
  | ok u =>
    cases u
    constructor
    · intro ⟨e, he⟩; simp at he
    · intro h; exact absurd ((validate_vars_ok_iff l).mp hv) h
  | error e =>
    constructor
    · intro _
      intro hvm
      have := (validate_vars_ok_iff l).mpr hvm
      rw [hv] at this
      simp at this
    · intro _; exact ⟨e, rfl⟩

/-- C6: with an empty mapping, `substitute` returns the template unchanged and
never fails, whatever the template contains (no validation is performed). -/
theorem substitute_empty_map (T : List Char) : substitute T [] = .ok T := rfl

/-- C3: `substitute` fails exactly when `validate_vars` fails (with the same
error), which happens exactly when some entry of the mapping has a key or a
value containing a forbidden character; on failure no output is produced,
since the `Except` result carries only the error. -/
theorem substitute_error_iff_validate_vars (T : List Char)
    (l : List (List Char × List Char)) :
    (∀ e, substitute T l = .error e ↔ validate_vars l = .error e) ∧
    ((∃ e, substitute T l = .error e) ↔
      ∃ kv ∈ l, ¬ (NoForbidden kv.1 ∧ NoForbidden kv.2)) := by
  cases l with
  | nil =>
    constructor
    · intro e
      simp [substitute, validate_vars]
    · simp [substitute]
  | cons kv rest =>
    have hiff : ∀ e, substitute T (kv :: rest) = .error e ↔
        validate_vars (kv :: rest) = .error e := by
      intro e
      simp only [substitute, List.isEmpty_cons, if_false, Bool.false_eq_true]
      exact substGo_error_iff (kv :: rest) T e
    refine ⟨hiff, ?_⟩
    constructor
    · intro ⟨e, he⟩
      have hnv := (validate_vars_error_exists (kv :: rest)).mp ⟨e, (hiff e).mp he⟩
      exact (not_validMap_iff (kv :: rest)).mp hnv
    · intro h
      obtain ⟨e, he⟩ := (validate_vars_error_exists (kv :: rest)).mpr
        ((not_validMap_iff (kv :: rest)).mpr h)
      exact ⟨e, (hiff e).mpr he⟩

/-- C5: `validate_vars` succeeds exactly when no key and no value contains a
forbidden character; it accepts the protocol/hostname example and rejects a
key containing a dollar sign. -/
theorem validate_vars_ok_characterization :
    (∀ l, validate_vars l = .ok () ↔ ∀ kv ∈ l, NoForbidden kv.1 ∧ NoForbidden kv.2) ∧
    validate_vars [("protocol".data, "https".data), ("hostname".data, "example.com".data)] =
      .ok () ∧
    validate_vars [("a$b".data, "c".data)] = .error ⟨errMsg keyKind "a$b".data '$'⟩ := by
  refine ⟨fun l => validate_vars_ok_iff l, ?_, ?_⟩ <;> rfl

/-! ### Error messages (C9) -/

theorem errMsg_parts (kind value : List Char) (c : Char) :
    kind <:+: errMsg kind value c ∧ value <:+: errMsg kind value c ∧
      [c] <:+: errMsg kind value c := by
  refine ⟨⟨"variable ".data,
      " ".data ++ [quoteChar] ++ value ++ [quoteChar] ++
        " contains forbidden character ".data ++ [quoteChar] ++ [c] ++ [quoteChar], ?_⟩,
    ⟨"variable ".data ++ kind ++ " ".data ++ [quoteChar],
      [quoteChar] ++ " contains forbidden character ".data ++ [quoteChar] ++ [c] ++ [quoteChar],
      ?_⟩,
    ⟨"variable ".data ++ kind ++ " ".data ++ [quoteChar] ++ value ++ [quoteChar] ++
        " contains forbidden character ".data ++ [quoteChar], [quoteChar], ?_⟩⟩ <;>
    simp [errMsg, List.append_assoc]

theorem validate_vars_error_cites (l : List (List Char × List Char)) (e : Error)
    (h : validate_vars l = .error e) :
    ∃ role s c,
      ((role = keyKind ∧ s ∈ l.map Prod.fst) ∨ (role = valueKind ∧ s ∈ l.map Prod.snd)) ∧
      c ∈ forbiddenChars ∧ c ∈ s ∧
      role <:+: e.msg ∧ s <:+: e.msg ∧ [c] <:+: e.msg := by
  induction l with
  | nil => simp [validate_vars] at h
  | cons kv rest ih =>
    obtain ⟨k, v⟩ := kv
    simp only [validate_vars] at h
    cases hk : validate k keyKind with
    | error e1 =>
      rw [hk] at h
      simp only [Except.bind, Except.error.injEq] at h
      subst h
      obtain ⟨c, hcf, hcx, hmsg⟩ := validate_error_elim k keyKind e1 hk
      refine ⟨keyKind, k, c, Or.inl ⟨rfl, by simp⟩, hcf, hcx, ?_, ?_, ?_⟩ <;>
        (rw [hmsg]; first
          | exact (errMsg_parts keyKind k c).1
          | exact (errMsg_parts keyKind k c).2.1
          | exact (errMsg_parts keyKind k c).2.2)
    | ok u =>
      cases u
      rw [hk] at h
      simp only [Except.bind] at h
      cases hv : validate v valueKind with
      | error e2 =>
        rw [hv] at h
        simp only [Except.error.injEq] at h
        subst h
        obtain ⟨c, hcf, hcx, hmsg⟩ := validate_error_elim v valueKind e2 hv
        refine ⟨valueKind, v, c, Or.inr ⟨rfl, by simp⟩, hcf, hcx, ?_, ?_, ?_⟩ <;>
          (rw [hmsg]; first
            | exact (errMsg_parts valueKind v c).1
            | exact (errMsg_parts valueKind v c).2.1
            | exact (errMsg_parts valueKind v c).2.2)
      | ok u =>
        cases u
        rw [hv] at h
        obtain ⟨role, s, c, hrs, hcf, hcx, h1, h2, h3⟩ := ih h
        refine ⟨role, s, c, ?_, hcf, hcx, h1, h2, h3⟩
        rcases hrs with ⟨hr, hs⟩ | ⟨hr, hs⟩
        · exact Or.inl ⟨hr, by simp only [List.map_cons]; exact List.mem_cons_of_mem _ hs⟩
        · exact Or.inr ⟨hr, by simp only [List.map_cons]; exact List.mem_cons_of_mem _ hs⟩

/-- C9: every error produced by `substitute` or `validate_vars` carries a
message naming the role (key or value) of the offending entry, quoting the
offending text itself, and naming the forbidden character found in it. -/
theorem error_message_cites_offender (T : List Char)
    (l : List (List Char × List Char)) (e : Error)
    (h : substitute T l = .error e ∨ validate_vars l = .error e) :
    ∃ role s c,
      ((role = keyKind ∧ s ∈ l.map Prod.fst) ∨ (role = valueKind ∧ s ∈ l.map Prod.snd)) ∧
      c ∈ forbiddenChars ∧ c ∈ s ∧
      role <:+: e.msg ∧ s <:+: e.msg ∧ [c] <:+: e.msg := by
  have hvv : validate_vars l = .error e := by
    rcases h with hs | hv
    · exact ((substitute_error_iff_validate_vars T l).1 e).mp hs
    · exact hv
  exact validate_vars_error_cites l e hvv

/-! ### Prefix and substring bridges -/

theorem isPrefixOf_iff (p s : List Char) : p.isPrefixOf s = true ↔ p <+: s :=
  List.isPrefixOf_iff_prefix

theorem within_of_pref (p s : List Char) (h : p <+: s) : p <:+: s := by
  obtain ⟨r, hr⟩ := h
  exact ⟨[], r, by simpa using hr⟩

theorem within_cons (p : List Char) (c : Char) (t : List Char) (h : p <:+: t) :
    p <:+: (c :: t) := by
  obtain ⟨a, b, hab⟩ := h
  exact ⟨c :: a, b, congrArg (fun z => c :: z) hab⟩

theorem within_cons_elim (p : List Char) (c : Char) (t : List Char)
    (h : p <:+: (c :: t)) : p <+: (c :: t) ∨ p <:+: t := by
  obtain ⟨a, b, hab⟩ := h
  cases a with
  | nil => exact Or.inl ⟨b, by simpa using hab⟩
  | cons x a2 =>
    have hx : x = c ∧ a2 ++ p ++ b = t := by
      rw [List.cons_append, List.cons_append] at hab
      exact ⟨(List.cons.injEq _ _ _ _).mp hab |>.1, (List.cons.injEq _ _ _ _).mp hab |>.2⟩
    exact Or.inr ⟨a2, b, hx.2⟩

theorem occurs_iff_drop (p s : List Char) : p <:+: s ↔ ∃ i, p <+: s.drop i := by
  constructor
  · intro ⟨a, b, hab⟩
    refine ⟨a.length, ?_⟩
    rw [← hab, List.append_assoc, List.drop_left]
    exact ⟨b, rfl⟩
  · intro ⟨i, hp⟩
    obtain ⟨r, hr⟩ := hp
    refine ⟨s.take i, r, ?_⟩
    rw [List.append_assoc, hr, List.take_append_drop]

theorem fromToken_ne_nil (k : List Char) : fromToken k ≠ [] := by simp [fromToken]

/-- If the pattern does not occur in the subject, replace leaves it
unchanged. -/
theorem replaceStr_of_not_occurs (p v : List Char) :
    ∀ s, ¬ p <:+: s → replaceStr p v s = s := by
  intro s
  induction s with
  | nil => intro _; rfl
  | cons c t ih =>
    intro h
    rw [replaceStr_cons]
    have hnp : ¬ (p.isPrefixOf (c :: t) = true ∧ p ≠ []) := by
      intro ⟨hpre, _⟩
      exact h (within_of_pref p (c :: t) ((isPrefixOf_iff p (c :: t)).mp hpre))
    rw [if_neg hnp]
    rw [ih (fun hocc => h (within_cons p c t hocc))]

/-- C7: if no key token occurs in the template, a nonempty valid mapping
leaves the template unchanged (malformed markers included). -/
theorem substitute_no_token_unchanged (T : List Char) (l : List (List Char × List Char))
    (hne : l ≠ []) (hv : ValidMap l) (hno : ∀ kv ∈ l, ¬ (fromToken kv.1) <:+: T) :
    substitute T l = .ok T := by
  have hgo : ∀ m : List (List Char × List Char), ValidMap m →
      (∀ kv ∈ m, ¬ (fromToken kv.1) <:+: T) → substGo m T = .ok T := by
    intro m
    induction m with
    | nil => intro _ _; rfl
    | cons kv rest ih =>
      intro hvm hnom
      obtain ⟨k, v⟩ := kv
      have hk : validate k keyKind = .ok () :=
        (validate_ok_iff k keyKind).mpr (hvm (k, v) (List.mem_cons_self _ _)).1
      have hval : validate v valueKind = .ok () :=
        (validate_ok_iff v valueKind).mpr (hvm (k, v) (List.mem_cons_self _ _)).2
      simp only [substGo, hk, hval, Except.bind]
      rw [replaceStr_of_not_occurs (fromToken k) v T
        (hnom (k, v) (List.mem_cons_self _ _))]
      exact ih (fun kv hkv => hvm kv (List.mem_cons_of_mem _ hkv))
        (fun kv hkv => hnom kv (List.mem_cons_of_mem _ hkv))
  cases l with
  | nil => exact absurd rfl hne
  | cons kv rest =>
    simp only [substitute, List.isEmpty_cons, Bool.false_eq_true, if_false]
    exact hgo (kv :: rest) hv hno

theorem substitute_no_token_unchanged_witness :
    substitute "foo $\x7b bar".data [("VAR".data, "var".data)] = .ok "foo $\x7b bar".data :=
  substitute_no_token_unchanged "foo $\x7b bar".data [("VAR".data, "var".data)]
    (by decide) (by decide) (by decide)

theorem error_message_cites_offender_witness :
    ∃ role s c,
      ((role = keyKind ∧ s ∈ ([(("a$b".data : List Char), ("c".data : List Char))]).map Prod.fst) ∨
        (role = valueKind ∧ s ∈ ([(("a$b".data : List Char), ("c".data : List Char))]).map Prod.snd)) ∧
      c ∈ forbiddenChars ∧ c ∈ s ∧
      role <:+: (Error.mk (errMsg keyKind "a$b".data '$')).msg ∧
      s <:+: (Error.mk (errMsg keyKind "a$b".data '$')).msg ∧
      [c] <:+: (Error.mk (errMsg keyKind "a$b".data '$')).msg :=
  error_message_cites_offender "t".data [("a$b".data, "c".data)]
    ⟨errMsg keyKind "a$b".data '$'⟩ (Or.inr (by rfl))

/-! ### First occurrences and is_templated (C2) -/

/-- Declarative predicate: `i` is the index of the first occurrence of `p`
in `s`. -/
def FirstOccur (p s : List Char) (i : Nat) : Prop :=
  p.isPrefixOf (s.drop i) = true ∧ ∀ j, j < i → ¬ p.isPrefixOf (s.drop j) = true

theorem findSub_eq_some_iff_firstOccur (p s : List Char) (i : Nat) :
    findSub p s = some i ↔ FirstOccur p s i :=
  findSub_eq_some_iff p s i

/-- C2 (amended): `is_templated` is true exactly when the first occurrence of
the opening marker comes strictly before the first occurrence of the closing
brace (both existing); it does not test arbitrary pairs of occurrences. -/
theorem is_templated_first_occurrence (t : List Char) :
    is_templated t = true ↔
      ∃ s e, FirstOccur ['$', '\x7b'] t s ∧ FirstOccur ['\x7d'] t e ∧ s < e := by
  unfold is_templated
  cases h1 : findSub ['$', '\x7b'] t with
  | none =>
    cases h2 : findSub ['\x7d'] t with
    | none =>
      simp only [Bool.false_eq_true, false_iff]
      intro ⟨s, e, hs, _, _⟩
      rw [(findSub_eq_some_iff_firstOccur _ t s).mpr hs] at h1
      exact absurd h1 (by simp)
    | some e0 =>
      simp only [Bool.false_eq_true, false_iff]
      intro ⟨s, e, hs, _, _⟩
      rw [(findSub_eq_some_iff_firstOccur _ t s).mpr hs] at h1
      exact absurd h1 (by simp)
  | some s0 =>
    cases h2 : findSub ['\x7d'] t with
    | none =>
      simp only [Bool.false_eq_true, false_iff]
      intro ⟨s, e, _, he, _⟩
      rw [(findSub_eq_some_iff_firstOccur _ t e).mpr he] at h2
      exact absurd h2 (by simp)
    | some e0 =>
      simp only [decide_eq_true_eq]
      constructor
      · intro hlt
        exact ⟨s0, e0, (findSub_eq_some_iff_firstOccur _ t s0).mp h1,
          (findSub_eq_some_iff_firstOccur _ t e0).mp h2, hlt⟩
      · intro ⟨s, e, hs, he, hlt⟩
        have hs0 : s = s0 := by
          have := (findSub_eq_some_iff_firstOccur _ t s).mpr hs
          rw [h1] at this
          simpa using this.symm
        have he0 : e = e0 := by
          have := (findSub_eq_some_iff_firstOccur _ t e).mpr he
          rw [h2] at this
          simpa using this.symm
        rw [← hs0, ← he0]
        exact hlt

/-- C2 (counterexample to the claim as stated): in the subject close-brace,
dollar, open-brace, x, close-brace there is an occurrence of the opening
marker at index 1 and an occurrence of the closing brace at index 4 with
1 < 4, yet `is_templated` returns false, because the first closing brace (at
index 0) precedes the first opening marker. -/
theorem is_templated_existential_counterexample :
    ['$', '\x7b'].isPrefixOf (("\x7d$\x7bx\x7d".data).drop 1) = true ∧
    ['\x7d'].isPrefixOf (("\x7d$\x7bx\x7d".data).drop 4) = true ∧
    (1 : Nat) < 4 ∧ is_templated "\x7d$\x7bx\x7d".data = false := by
  exact ⟨rfl, rfl, by omega, rfl⟩

/-! ### Decomposition of replace (C4, C10) -/

theorem intercalate_singleton_eq (sep x : List Char) : List.intercalate sep [x] = x := by
  simp [List.intercalate]

theorem intercalate_cons_of_ne_nil (sep x : List Char) (parts : List (List Char))
    (h : parts ≠ []) :
    List.intercalate sep (x :: parts) = x ++ sep ++ List.intercalate sep parts := by
  cases parts with
  | nil => exact absurd rfl h
  | cons u us => simp [List.intercalate, List.append_assoc]

theorem intercalate_cons_head (sep : List Char) (c : Char) (u : List Char)
    (us : List (List Char)) :
    List.intercalate sep ((c :: u) :: us) = c :: List.intercalate sep (u :: us) := by
  cases us with
  | nil => simp [List.intercalate]
  | cons w ws => simp [List.intercalate]

theorem not_within_nil (p : List Char) (hp : p ≠ []) : ¬ p <:+: ([] : List Char) := by
  intro ⟨a, b, hab⟩
  simp at hab
  exact hp hab.2.1

theorem eq_append_drop_of_pref (p s : List Char) (h : p <+: s) :
    s = p ++ s.drop p.length := by
  obtain ⟨r, hr⟩ := h
  rw [← hr, List.drop_left]

/-- Greedy left-to-right replacement splits the subject into the (possibly
empty) pattern-free parts between consecutive pattern occurrences and maps
each occurrence to the replacement. -/
theorem replaceStr_decomposition (p v : List Char) (hp : p ≠ []) (s : List Char) :
    ∃ parts : List (List Char), parts ≠ [] ∧
      (∃ u us, parts = u :: us ∧ u <+: s) ∧
      s = List.intercalate p parts ∧
      (∀ u ∈ parts, ¬ p <:+: u) ∧
      replaceStr p v s = List.intercalate v parts := by
  have main : ∀ (n : Nat) (s : List Char), s.length ≤ n →
      ∃ parts : List (List Char), parts ≠ [] ∧
        (∃ u us, parts = u :: us ∧ u <+: s) ∧
        s = List.intercalate p parts ∧
        (∀ u ∈ parts, ¬ p <:+: u) ∧
        replaceStr p v s = List.intercalate v parts := by
    intro n
    induction n with
    | zero =>
      intro s hs
      have hnil : s = [] := List.eq_nil_of_length_eq_zero (Nat.le_zero.mp hs)
      subst hnil
      refine ⟨[[]], by simp, ⟨[], [], rfl, List.nil_prefix⟩, ?_, ?_, ?_⟩
      · rw [intercalate_singleton_eq]
      · intro u hu
        simp at hu
        subst hu
        exact not_within_nil p hp
      · rw [replaceStr_nil, intercalate_singleton_eq]
    | succ n ih =>
      intro s hs
      cases s with
      | nil =>
        refine ⟨[[]], by simp, ⟨[], [], rfl, List.nil_prefix⟩, ?_, ?_, ?_⟩
        · rw [intercalate_singleton_eq]
        · intro u hu
          simp at hu
          subst hu
          exact not_within_nil p hp
        · rw [replaceStr_nil, intercalate_singleton_eq]
      | cons c t =>
        have hlen : p.length = (p.length - 1) + 1 := by
          cases p with
          | nil => exact absurd rfl hp
          | cons a q => simp
        by_cases hpre : p.isPrefixOf (c :: t) = true
        · -- pattern matches at the head
          have hd : (t.drop (p.length - 1)).length ≤ n := by
            have h1 : (t.drop (p.length - 1)).length ≤ t.length := by simp
            have h2 : (c :: t).length ≤ n + 1 := hs
            simp at h2
            omega
          obtain ⟨parts2, hne2, _, heq2, hfree2, hrep2⟩ := ih (t.drop (p.length - 1)) hd
          have hsplit : (c :: t) = p ++ t.drop (p.length - 1) := by
            have h0 := eq_append_drop_of_pref p (c :: t) ((isPrefixOf_iff _ _).mp hpre)
            rw [hlen, List.drop_succ_cons] at h0
            exact h0
          refine ⟨[] :: parts2, by simp, ⟨[], parts2, rfl, List.nil_prefix⟩, ?_, ?_, ?_⟩
          · rw [intercalate_cons_of_ne_nil p [] parts2 hne2]
            simp only [List.nil_append]
            rw [← heq2]
            exact hsplit
          · intro u hu
            rcases List.mem_cons.mp hu with h0 | h0
            · subst h0
              exact not_within_nil p hp
            · exact hfree2 u h0
          · rw [replaceStr_cons, if_pos ⟨hpre, hp⟩]
            rw [intercalate_cons_of_ne_nil v [] parts2 hne2]
            simp only [List.nil_append]
            rw [hrep2]
        · -- no match at the head
          have hlt : t.length ≤ n := by
            have h2 : (c :: t).length ≤ n + 1 := hs
            simp at h2
            omega
          obtain ⟨parts2, hne2, ⟨u, us, hcons, hupfx⟩, heq2, hfree2, hrep2⟩ := ih t hlt
          subst hcons
          refine ⟨(c :: u) :: us, by simp, ⟨c :: u, us, rfl, ?_⟩, ?_, ?_, ?_⟩
          · obtain ⟨r, hr⟩ := hupfx
            exact ⟨r, congrArg (fun z => c :: z) hr⟩
          · rw [intercalate_cons_head p c u us, ← heq2]
          · intro w hw
            rcases List.mem_cons.mp hw with h0 | h0
            · subst h0
              intro hocc
              rcases within_cons_elim p c u hocc with hq | hq
              · have hcu : (c :: u) <+: (c :: t) := by
                  obtain ⟨r, hr⟩ := hupfx
                  exact ⟨r, congrArg (fun z => c :: z) hr⟩
                exact hpre ((isPrefixOf_iff _ _).mpr (hq.trans hcu))
              · exact hfree2 u (List.mem_cons_self _ _) hq
            · exact hfree2 w (List.mem_cons_of_mem _ h0)
          · have hnp : ¬ (p.isPrefixOf (c :: t) = true ∧ p ≠ []) := fun h0 => hpre h0.1
            rw [replaceStr_cons, if_neg hnp, hrep2, intercalate_cons_head v c u us]
  exact main s.length s le_rfl

/-- The replacement step run by `substitute` on each entry, in iteration
order. -/
def substStep (acc : List Char) (kv : List Char × List Char) : List Char :=
  replaceStr (fromToken kv.1) kv.2 acc

theorem substGo_ok_of_valid (l : List (List Char × List Char)) (hv : ValidMap l) :
    ∀ out, substGo l out = .ok (l.foldl substStep out) := by
  induction l with
  | nil => intro out; rfl
  | cons kv rest ih =>
    intro out
    obtain ⟨k, v⟩ := kv
    have hk : validate k keyKind = .ok () :=
      (validate_ok_iff k keyKind).mpr (hv (k, v) (List.mem_cons_self _ _)).1
    have hval : validate v valueKind = .ok () :=
      (validate_ok_iff v valueKind).mpr (hv (k, v) (List.mem_cons_self _ _)).2
    simp only [substGo, hk, hval, Except.bind, List.foldl_cons]
    exact ih (fun kv hkv => hv kv (List.mem_cons_of_mem _ hkv)) _

theorem substitute_eq_foldl (T : List Char) (l : List (List Char × List Char))
    (hv : ValidMap l) : substitute T l = .ok (l.foldl substStep T) := by
  cases l with
  | nil => rfl
  | cons kv rest =>
    simp only [substitute, List.isEmpty_cons, Bool.false_eq_true, if_false]
    exact substGo_ok_of_valid (kv :: rest) hv T

/-- C4: on a valid mapping `substitute` succeeds, processing each entry by a
literal all-occurrences replace: each step splits its subject into
pattern-free parts separated by the key token and rewrites every separator to
the value; e.g. the basic example replaces the single occurrence. -/
theorem substitute_replaces_all_occurrences (T : List Char)
    (l : List (List Char × List Char)) (hv : ValidMap l) :
    substitute T l = .ok (l.foldl substStep T) ∧
    (∀ kv ∈ l, ∀ s : List Char, ∃ parts : List (List Char),
      s = List.intercalate (fromToken kv.1) parts ∧
      (∀ u ∈ parts, ¬ (fromToken kv.1) <:+: u) ∧
      substStep s kv = List.intercalate kv.2 parts) ∧
    substitute "foo $\x7bVAR\x7d bar".data [("VAR".data, "var".data)] =
      .ok "foo var bar".data := by
  refine ⟨substitute_eq_foldl T l hv, ?_, rfl⟩
  intro kv _ s
  obtain ⟨parts, _, _, heq, hfree, hrep⟩ :=
    replaceStr_decomposition (fromToken kv.1) kv.2 (fromToken_ne_nil kv.1) s
  exact ⟨parts, heq, hfree, hrep⟩

theorem substitute_replaces_all_occurrences_witness :
    substitute "foo $\x7bVAR\x7d bar".data [("VAR".data, "var".data)] =
      .ok ([("VAR".data, "var".data)].foldl substStep "foo $\x7bVAR\x7d bar".data) ∧
    (∀ kv ∈ [("VAR".data, "var".data)], ∀ s : List Char, ∃ parts : List (List Char),
      s = List.intercalate (fromToken kv.1) parts ∧
      (∀ u ∈ parts, ¬ (fromToken kv.1) <:+: u) ∧
      substStep s kv = List.intercalate kv.2 parts) ∧
    substitute "foo $\x7bVAR\x7d bar".data [("VAR".data, "var".data)] =
      .ok "foo var bar".data :=
  substitute_replaces_all_occurrences "foo $\x7bVAR\x7d bar".data
    [("VAR".data, "var".data)] (by decide)

/-- C10: the empty string is an acceptable variable name: the validator
imposes no shape requirement, and substitution replaces every occurrence of
the empty-name token (dollar, open brace, close brace) by the value. -/
theorem empty_key_accepted (v T : List Char) (hv : NoForbidden v) :
    validate_vars [([], v)] = .ok () ∧
    (∃ out, substitute T [([], v)] = .ok out ∧
      ∃ parts : List (List Char),
        T = List.intercalate (fromToken []) parts ∧
        (∀ u ∈ parts, ¬ (fromToken []) <:+: u) ∧
        out = List.intercalate v parts) ∧
    substitute "a$\x7b\x7db".data [([], "x".data)] = .ok "axb".data := by
  have hnil : NoForbidden ([] : List Char) := by
    intro c _ hmem
    simp at hmem
  have hvm : ValidMap [([], v)] := by
    intro kv hkv
    rcases List.mem_singleton.mp hkv with h0
    subst h0
    exact ⟨hnil, hv⟩
  refine ⟨(validate_vars_ok_iff _).mpr hvm, ?_, rfl⟩
  obtain ⟨parts, _, _, heq, hfree, hrep⟩ :=
    replaceStr_decomposition (fromToken []) v (fromToken_ne_nil []) T
  refine ⟨replaceStr (fromToken []) v T, ?_, parts, heq, hfree, hrep⟩
  have h0 := substitute_eq_foldl T [([], v)] hvm
  simpa [substStep] using h0

theorem empty_key_accepted_witness :
    validate_vars [(([] : List Char), "x".data)] = .ok () ∧
    (∃ out, substitute "a$\x7b\x7db".data [(([] : List Char), "x".data)] = .ok out ∧
      ∃ parts : List (List Char),
        "a$\x7b\x7db".data = List.intercalate (fromToken []) parts ∧
        (∀ u ∈ parts, ¬ (fromToken []) <:+: u) ∧
        out = List.intercalate "x".data parts) ∧
    substitute "a$\x7b\x7db".data [([], "x".data)] = .ok "axb".data :=
  empty_key_accepted "x".data "a$\x7b\x7db".data (by decide)

/-! ### Order of processing (C1): helper lemmas -/

theorem noForbidden_iff (s : List Char) :
    NoForbidden s ↔ '$' ∉ s ∧ '\x7b' ∉ s ∧ '\x7d' ∉ s := by
  constructor
  · intro h
    exact ⟨h '$' (by simp [forbiddenChars]), h '\x7b' (by simp [forbiddenChars]),
      h '\x7d' (by simp [forbiddenChars])⟩
  · intro ⟨h1, h2, h3⟩ c hc
    simp only [forbiddenChars, List.mem_cons, List.mem_singleton] at hc
    rcases hc with h0 | h0 | h0
    · subst h0; exact h1
    · subst h0; exact h2
    · rcases h0 with h0 | h0
      · subst h0; exact h3
      · simp at h0

theorem fromToken_length (k : List Char) : (fromToken k).length = k.length + 3 := by
  simp [fromToken]

theorem pref_closeBrace_elim (w : List Char) :
    ∀ v : List Char, '\x7d' ∉ v → v <+: (w ++ ['\x7d']) → v <+: w := by
  induction w with
  | nil =>
    intro v hv h
    cases v with
    | nil => exact List.nil_prefix
    | cons a v2 =>
      obtain ⟨r, hr⟩ := h
      rw [List.cons_append, List.nil_append] at hr
      have ha : a = '\x7d' := ((List.cons.injEq _ _ _ _).mp hr).1
      have : '\x7d' ∈ a :: v2 := by rw [ha]; exact List.mem_cons_self _ _
      exact absurd this hv
  | cons b w2 ih =>
    intro v hv h
    cases v with
    | nil => exact List.nil_prefix
    | cons a v2 =>
      obtain ⟨r, hr⟩ := h
      rw [List.cons_append, List.cons_append] at hr
      have hab := (List.cons.injEq _ _ _ _).mp hr
      have h2 : v2 <+: (w2 ++ ['\x7d']) := ⟨r, hab.2⟩
      have hv2 : '\x7d' ∉ v2 := fun hm => hv (List.mem_cons_of_mem _ hm)
      obtain ⟨r2, hr2⟩ := ih v2 hv2 h2
      exact ⟨r2, by rw [List.cons_append, hab.1, hr2]⟩

/-- Transfer of a brace-terminated prefix through a replacement: if the
replacement value cannot occur inside `w`, a prefix `w` followed by a closing
brace of the replaced string was already a prefix of the original string. -/
theorem pref_transfer (p v : List Char) (hv : NoForbidden v) :
    ∀ (w t : List Char), ¬ v <:+: w →
      (w ++ ['\x7d']).isPrefixOf (replaceStr p v t) = true →
      (w ++ ['\x7d']).isPrefixOf t = true := by
  intro w
  induction w with
  | nil =>
    intro t hnv h
    cases t with
    | nil => rw [replaceStr_nil] at h; simp [List.isPrefixOf] at h
    | cons c t2 =>
      rw [replaceStr_cons] at h
      by_cases hc : p.isPrefixOf (c :: t2) = true ∧ p ≠ []
      · rw [if_pos hc] at h
        have hvne : v ≠ [] := by
          intro h0
          exact hnv (by rw [h0])
        cases hv0 : v with
        | nil => exact absurd hv0 hvne
        | cons d v2 =>
          rw [hv0, List.cons_append] at h
          rw [List.nil_append] at h
          obtain ⟨r, hr⟩ := (isPrefixOf_iff _ _).mp h
          rw [List.cons_append] at hr
          have hd : '\x7d' = d := ((List.cons.injEq _ _ _ _).mp hr).1
          have hmem : '\x7d' ∈ v := by rw [hv0, hd]; exact List.mem_cons_self _ _
          exact absurd hmem ((noForbidden_iff v).mp hv).2.2
      · rw [if_neg hc] at h
        simp only [List.nil_append, List.isPrefixOf, Bool.and_eq_true, beq_iff_eq] at h ⊢
        exact h
  | cons a w2 ih =>
    intro t hnv h
    cases t with
    | nil => rw [replaceStr_nil] at h; simp [List.isPrefixOf] at h
    | cons c t2 =>
      rw [replaceStr_cons] at h
      by_cases hc : p.isPrefixOf (c :: t2) = true ∧ p ≠ []
      · rw [if_pos hc] at h
        have hP : ((a :: w2) ++ ['\x7d']) <+:
            (v ++ replaceStr p v (t2.drop (p.length - 1))) := (isPrefixOf_iff _ _).mp h
        have hQ : v <+: (v ++ replaceStr p v (t2.drop (p.length - 1))) :=
          List.prefix_append v _
        rcases List.prefix_or_prefix_of_prefix hP hQ with hq | hq
        · have hmem : '\x7d' ∈ v := hq.subset (by simp)
          exact absurd hmem ((noForbidden_iff v).mp hv).2.2
        · have hvw : v <+: (a :: w2) :=
            pref_closeBrace_elim (a :: w2) v ((noForbidden_iff v).mp hv).2.2 hq
          exact absurd (within_of_pref v (a :: w2) hvw) hnv
      · rw [if_neg hc] at h
        rw [List.cons_append] at h ⊢
        simp only [List.isPrefixOf, Bool.and_eq_true, beq_iff_eq] at h ⊢
        have hnv2 : ¬ v <:+: w2 := fun h0 => hnv (within_cons v a w2 h0)
        exact ⟨h.1, ih t2 hnv2 h.2⟩

/-- Replacement cannot make a key token appear at a position where it was not
already present, provided the replacement value is not a substring of the
key. -/
theorem no_new_token (p v k2 : List Char) (hv : NoForbidden v) (hk2 : ¬ v <:+: k2)
    (c : Char) (t : List Char)
    (h : (fromToken k2).isPrefixOf (c :: replaceStr p v t) = true) :
    (fromToken k2).isPrefixOf (c :: t) = true := by
  unfold fromToken at h ⊢
  simp only [List.isPrefixOf, Bool.and_eq_true, beq_iff_eq] at h ⊢
  refine ⟨h.1, ?_⟩
  have hw : ¬ v <:+: ('\x7b' :: k2) := by
    intro h0
    rcases within_cons_elim v '\x7b' k2 h0 with hq | hq
    · cases hv0 : v with
      | nil => exact hk2 (by rw [hv0]; exact ⟨[], k2, by simp⟩)
      | cons d v2 =>
        obtain ⟨r, hr⟩ := hq
        rw [hv0, List.cons_append] at hr
        have hd : d = '\x7b' := ((List.cons.injEq _ _ _ _).mp hr).1
        have hmem : '\x7b' ∈ v := by rw [hv0, ← hd]; exact List.mem_cons_self _ _
        exact absurd hmem ((noForbidden_iff v).mp hv).2.1
    · exact hk2 hq
  have h2 : (('\x7b' :: k2) ++ ['\x7d']).isPrefixOf (replaceStr p v t) = true := by
    rw [List.cons_append]
    exact h.2
  have h3 := pref_transfer p v hv ('\x7b' :: k2) t hw h2
  rw [List.cons_append] at h3
  exact h3

/-! ### Simultaneous substitution -/

/-- Fuel-indexed simultaneous substitution: scan the subject left to right;
at each position replace the token of the first mapping entry whose token
starts there, otherwise copy the character. -/
def simFuel (m : List (List Char × List Char)) : Nat → List Char → List Char
  | _, [] => []
  | 0, s => s
  | Nat.succ n, c :: t =>
    match m.find? (fun e => (fromToken e.1).isPrefixOf (c :: t)) with
    | some e => e.2 ++ simFuel m n (t.drop (e.1.length + 2))
    | none => c :: simFuel m n t

/-- Simultaneous substitution of all mapping entries in one scan. -/
def simsub (m : List (List Char × List Char)) (s : List Char) : List Char :=
  simFuel m s.length s

theorem simFuel_nil (m : List (List Char × List Char)) (n : Nat) : simFuel m n [] = [] := by
  cases n <;> rfl

theorem simFuel_cons (m : List (List Char × List Char)) (n : Nat) (c : Char) (t : List Char) :
    simFuel m (n + 1) (c :: t) =
      match m.find? (fun e => (fromToken e.1).isPrefixOf (c :: t)) with
      | some e => e.2 ++ simFuel m n (t.drop (e.1.length + 2))
      | none => c :: simFuel m n t := rfl

theorem simFuel_congr (m : List (List Char × List Char)) :
    ∀ n n2 s, s.length ≤ n → s.length ≤ n2 → simFuel m n s = simFuel m n2 s := by
  intro n
  induction n with
  | zero =>
    intro n2 s hn _
    have hs : s = [] := List.eq_nil_of_length_eq_zero (Nat.le_zero.mp hn)
    subst hs
    rw [simFuel_nil, simFuel_nil]
  | succ n ih =>
    intro n2 s hn hm
    cases s with
    | nil => rw [simFuel_nil, simFuel_nil]
    | cons c t =>
      cases n2 with
      | zero => exact absurd hm (by simp)
      | succ n2 =>
        have hn' : t.length ≤ n := Nat.succ_le_succ_iff.mp (by simpa using hn)
        have hm' : t.length ≤ n2 := Nat.succ_le_succ_iff.mp (by simpa using hm)
        rw [simFuel_cons, simFuel_cons]
        cases hf : m.find? (fun e => (fromToken e.1).isPrefixOf (c :: t)) with
        | some e =>
          have hd : (t.drop (e.1.length + 2)).length ≤ t.length := by simp
          show e.2 ++ simFuel m n (t.drop (e.1.length + 2)) =
            e.2 ++ simFuel m n2 (t.drop (e.1.length + 2))
          rw [ih n2 (t.drop (e.1.length + 2)) (le_trans hd hn') (le_trans hd hm')]
        | none =>
          show c :: simFuel m n t = c :: simFuel m n2 t
          rw [ih n2 t hn' hm']

theorem simsub_nil (m : List (List Char × List Char)) : simsub m [] = [] := rfl

theorem simsub_cons (m : List (List Char × List Char)) (c : Char) (t : List Char) :
    simsub m (c :: t) =
      match m.find? (fun e => (fromToken e.1).isPrefixOf (c :: t)) with
      | some e => e.2 ++ simsub m (t.drop (e.1.length + 2))
      | none => c :: simsub m t := by
  show simFuel m (t.length + 1) (c :: t) = _
  rw [simFuel_cons]
  cases hf : m.find? (fun e => (fromToken e.1).isPrefixOf (c :: t)) with
  | some e =>
    show e.2 ++ simFuel m t.length (t.drop (e.1.length + 2)) =
      e.2 ++ simsub m (t.drop (e.1.length + 2))
    unfold simsub
    rw [simFuel_congr m t.length (t.drop (e.1.length + 2)).length (t.drop (e.1.length + 2))
        (by simp) le_rfl]
  | none =>
    show c :: simFuel m t.length t = c :: simsub m t
    rfl

/-! ### Uniqueness of the matching key -/

theorem closeBrace_pref_inj : ∀ (a b : List Char), '\x7d' ∉ a → '\x7d' ∉ b →
    (a ++ ['\x7d']) <+: (b ++ ['\x7d']) → a = b := by
  intro a
  induction a with
  | nil =>
    intro b _ hb h
    cases b with
    | nil => rfl
    | cons x b2 =>
      obtain ⟨r, hr⟩ := h
      rw [List.nil_append, List.cons_append] at hr
      have hx : '\x7d' = x := ((List.cons.injEq _ _ _ _).mp hr).1
      exact absurd (by rw [hx]; exact List.mem_cons_self _ _) hb
  | cons x a2 ih =>
    intro b ha hb h
    cases b with
    | nil =>
      obtain ⟨r, hr⟩ := h
      rw [List.cons_append, List.nil_append] at hr
      have hx : x = '\x7d' := ((List.cons.injEq _ _ _ _).mp hr).1
      exact absurd (by rw [← hx]; exact List.mem_cons_self _ _) ha
    | cons y b2 =>
      obtain ⟨r, hr⟩ := h
      rw [List.cons_append, List.cons_append] at hr
      have hxy := (List.cons.injEq _ _ _ _).mp hr
      have ha2 : '\x7d' ∉ a2 := fun hm => ha (List.mem_cons_of_mem _ hm)
      have hb2 : '\x7d' ∉ b2 := fun hm => hb (List.mem_cons_of_mem _ hm)
      rw [hxy.1, ih b2 ha2 hb2 ⟨r, hxy.2⟩]

theorem fromToken_pref_inj (k1 k2 : List Char) (h1 : '\x7d' ∉ k1) (h2 : '\x7d' ∉ k2)
    (z : List Char) (hp1 : (fromToken k1) <+: z) (hp2 : (fromToken k2) <+: z) :
    k1 = k2 := by
  obtain ⟨r1, hr1⟩ := hp1
  obtain ⟨r2, hr2⟩ := hp2
  have heq : fromToken k1 ++ r1 = fromToken k2 ++ r2 := by rw [hr1, hr2]
  unfold fromToken at heq
  rw [List.cons_append, List.cons_append, List.cons_append, List.cons_append] at heq
  have e1 := (List.cons.injEq _ _ _ _).mp heq
  have e2 := (List.cons.injEq _ _ _ _).mp e1.2
  have hq1 : (k1 ++ ['\x7d']) <+: ((k1 ++ ['\x7d']) ++ r1) := List.prefix_append _ _
  have hq2 : (k2 ++ ['\x7d']) <+: ((k1 ++ ['\x7d']) ++ r1) := by
    rw [e2.2]
    exact List.prefix_append _ _
  rcases List.prefix_or_prefix_of_prefix hq2 hq1 with hq | hq
  · exact (closeBrace_pref_inj k2 k1 h2 h1 hq).symm
  · exact closeBrace_pref_inj k1 k2 h1 h2 hq

theorem entry_inj_of_nodup_keys (m : List (List Char × List Char))
    (hn : (m.map Prod.fst).Nodup) :
    ∀ e1 ∈ m, ∀ e2 ∈ m, e1.1 = e2.1 → e1 = e2 := by
  induction m with
  | nil => intro e1 h1; simp at h1
  | cons a m2 ih =>
    intro e1 h1 e2 h2 hkey
    rw [List.map_cons, List.nodup_cons] at hn
    rcases List.mem_cons.mp h1 with ha1 | ha1 <;> rcases List.mem_cons.mp h2 with ha2 | ha2
    · rw [ha1, ha2]
    · subst ha1
      exact absurd (by rw [hkey]; exact List.mem_map_of_mem Prod.fst ha2) hn.1
    · subst ha2
      exact absurd (by rw [← hkey]; exact List.mem_map_of_mem Prod.fst ha1) hn.1
    · exact ih hn.2 e1 ha1 e2 ha2 hkey

theorem find?_eq_some_of_unique {α : Type} (pred : α → Bool) :
    ∀ (m : List α) (e : α), e ∈ m → pred e = true →
      (∀ e2 ∈ m, pred e2 = true → e2 = e) → m.find? pred = some e := by
  intro m
  induction m with
  | nil => intro e he; simp at he
  | cons a m2 ih =>
    intro e he hpe huniq
    by_cases ha : pred a = true
    · rw [List.find?_cons_of_pos _ ha]
      rw [huniq a (List.mem_cons_self _ _) ha]
    · rw [List.find?_cons_of_neg _ ha]
      rcases List.mem_cons.mp he with h0 | h0
      · subst h0; exact absurd hpe ha
      · exact ih e h0 hpe (fun e2 h2 hp2 => huniq e2 (List.mem_cons_of_mem _ h2) hp2)

/-! ### Skipping over unmatched segments -/

theorem replaceStr_append_of_no_match (p v : List Char) :
    ∀ (x y : List Char), (∀ i, i < x.length → ¬ p.isPrefixOf (x.drop i ++ y) = true) →
      replaceStr p v (x ++ y) = x ++ replaceStr p v y := by
  intro x
  induction x with
  | nil => intro y _; simp
  | cons a x2 ih =>
    intro y hno
    rw [List.cons_append, replaceStr_cons]
    have h0 : ¬ (p.isPrefixOf (a :: (x2 ++ y)) = true ∧ p ≠ []) := by
      intro ⟨hp0, _⟩
      exact hno 0 (by simp) (by simpa using hp0)
    rw [if_neg h0]
    rw [ih y (fun i hi => by simpa using hno (i + 1) (by simpa using Nat.succ_lt_succ hi))]
    rfl

theorem simsub_append_left (m : List (List Char × List Char)) (v : List Char)
    (hv : '$' ∉ v) : ∀ z, simsub m (v ++ z) = v ++ simsub m z := by
  induction v with
  | nil => intro z; simp
  | cons d v2 ih =>
    intro z
    have hd : d ≠ '$' := fun h0 => hv (by rw [← h0]; exact List.mem_cons_self _ _)
    rw [List.cons_append, simsub_cons]
    have hfind : List.find? (fun e => (fromToken e.1).isPrefixOf (d :: (v2 ++ z))) m = none := by
      rw [List.find?_eq_none]
      intro e _
      simp only [fromToken, List.isPrefixOf, Bool.and_eq_true, beq_iff_eq, not_and]
      intro h0
      exact absurd h0.symm hd
    rw [hfind]
    show d :: simsub m (v2 ++ z) = d :: (v2 ++ simsub m z)
    rw [ih (fun hm => hv (List.mem_cons_of_mem _ hm)) z]

theorem fromToken_drop_head (k2 : List Char) (hk2 : NoForbidden k2) (i : Nat)
    (h1 : 1 ≤ i) (h2 : i < (fromToken k2).length) :
    ∃ d z, (fromToken k2).drop i = d :: z ∧ d ≠ '$' := by
  have hrest : '$' ∉ ('\x7b' :: (k2 ++ ['\x7d'])) := by
    intro hm
    rcases List.mem_cons.mp hm with h0 | h0
    · simp at h0
    · rcases List.mem_append.mp h0 with h3 | h3
      · exact ((noForbidden_iff k2).mp hk2).1 h3
      · simp at h3
  have hdrop : (fromToken k2).drop i = ('\x7b' :: (k2 ++ ['\x7d'])).drop (i - 1) := by
    unfold fromToken
    cases i with
    | zero => exact absurd h1 (by omega)
    | succ j => rw [List.drop_succ_cons]; simp
  have hlen2 : ('\x7b' :: (k2 ++ ['\x7d'])).length = k2.length + 2 := by simp
  have hlen : i - 1 < ('\x7b' :: (k2 ++ ['\x7d'])).length := by
    rw [fromToken_length] at h2
    rw [hlen2]
    omega
  cases hdz : ('\x7b' :: (k2 ++ ['\x7d'])).drop (i - 1) with
  | nil =>
    have h3 := congrArg List.length hdz
    rw [List.length_drop, hlen2] at h3
    rw [hlen2] at hlen
    simp at h3
    omega
  | cons d z =>
    refine ⟨d, z, by rw [hdrop, hdz], ?_⟩
    intro h0
    have hdmem : d ∈ ('\x7b' :: (k2 ++ ['\x7d'])) := by
      have hsub := List.drop_subset (i - 1) ('\x7b' :: (k2 ++ ['\x7d']))
      exact hsub (by rw [hdz]; exact List.mem_cons_self _ _)
    rw [h0] at hdmem
    exact hrest hdmem

theorem simsub_empty_map : ∀ T : List Char, simsub [] T = T := by
  intro T
  induction T with
  | nil => rfl
  | cons c t ih =>
    rw [simsub_cons]
    show c :: simsub [] t = c :: t
    rw [ih]

/-- When the subject starts with the token of a mapping entry, simultaneous
substitution emits the entry value and continues after the token; the entry
is determined uniquely by the key tokens being brace-terminated. -/
theorem simsub_token_head (m : List (List Char × List Char))
    (e2 : List Char × List Char) (hmem : e2 ∈ m)
    (hkeys : ∀ e ∈ m, NoForbidden e.1) (hnodup : (m.map Prod.fst).Nodup)
    (W : List Char) :
    simsub m (fromToken e2.1 ++ W) = e2.2 ++ simsub m W := by
  have hshape : fromToken e2.1 ++ W = '$' :: (('\x7b' :: (e2.1 ++ ['\x7d'])) ++ W) := by
    simp [fromToken]
  rw [hshape, simsub_cons]
  have hfind2 : m.find? (fun e => (fromToken e.1).isPrefixOf
      ('$' :: (('\x7b' :: (e2.1 ++ ['\x7d'])) ++ W))) = some e2 := by
    apply find?_eq_some_of_unique _ m e2 hmem
    · show (fromToken e2.1).isPrefixOf ('$' :: (('\x7b' :: (e2.1 ++ ['\x7d'])) ++ W)) = true
      rw [← hshape]
      exact (isPrefixOf_iff _ _).mpr (List.prefix_append _ _)
    · intro e3 hm3 hp3
      have hpref3 : fromToken e3.1 <+: (fromToken e2.1 ++ W) := by
        rw [hshape]
        exact (isPrefixOf_iff _ _).mp hp3
      have hkey : e3.1 = e2.1 := fromToken_pref_inj e3.1 e2.1
        ((noForbidden_iff e3.1).mp (hkeys e3 hm3)).2.2
        ((noForbidden_iff e2.1).mp (hkeys e2 hmem)).2.2
        (fromToken e2.1 ++ W) hpref3 (List.prefix_append _ _)
      exact entry_inj_of_nodup_keys m hnodup e3 hm3 e2 hmem hkey
  rw [hfind2]
  show e2.2 ++ simsub m ((('\x7b' :: (e2.1 ++ ['\x7d'])) ++ W).drop (e2.1.length + 2)) =
    e2.2 ++ simsub m W
  have hxlen : ('\x7b' :: (e2.1 ++ ['\x7d'])).length = e2.1.length + 2 := by simp
  rw [show (('\x7b' :: (e2.1 ++ ['\x7d'])) ++ W).drop (e2.1.length + 2) = W from by
    rw [← hxlen, List.drop_left]]

/-- Main commutation lemma: prepending an entry to a simultaneous
substitution is the same as first performing that entry's sequential
replacement and then substituting the remaining entries simultaneously. -/
theorem simsub_cons_entry (k v : List Char) (rest : List (List Char × List Char))
    (hk : NoForbidden k) (hv : NoForbidden v)
    (hkeys : ∀ e ∈ rest, NoForbidden e.1)
    (hnotin : k ∉ rest.map Prod.fst)
    (hnodup : (rest.map Prod.fst).Nodup)
    (hinf : ∀ e ∈ rest, ¬ v <:+: e.1) :
    ∀ s, simsub ((k, v) :: rest) s = simsub rest (replaceStr (fromToken k) v s) := by
  have hkeys_cons : ∀ e ∈ (k, v) :: rest, NoForbidden e.1 := by
    intro e he
    rcases List.mem_cons.mp he with h0 | h0
    · rw [h0]; exact hk
    · exact hkeys e h0
  have hnodup_cons : (((k, v) :: rest).map Prod.fst).Nodup := by
    rw [List.map_cons]
    exact List.nodup_cons.mpr ⟨hnotin, hnodup⟩
  have main : ∀ (n : Nat) (s : List Char), s.length ≤ n →
      simsub ((k, v) :: rest) s = simsub rest (replaceStr (fromToken k) v s) := by
    intro n
    induction n with
    | zero =>
      intro s hs
      have h0 : s = [] := List.eq_nil_of_length_eq_zero (Nat.le_zero.mp hs)
      subst h0
      rw [replaceStr_nil, simsub_nil, simsub_nil]
    | succ n ih =>
      intro s hs
      cases s with
      | nil => rw [replaceStr_nil, simsub_nil, simsub_nil]
      | cons c t =>
        have hlent : t.length ≤ n := Nat.succ_le_succ_iff.mp (by simpa using hs)
        by_cases hA : (fromToken k).isPrefixOf (c :: t) = true
        · -- the head entry token starts at the head of the subject
          have hstA : fromToken k ++ t.drop (k.length + 2) = c :: t := by
            have h0 := eq_append_drop_of_pref (fromToken k) (c :: t)
              ((isPrefixOf_iff _ _).mp hA)
            have hdr : (c :: t).drop ((fromToken k).length) = t.drop (k.length + 2) := by
              rw [fromToken_length, show k.length + 3 = k.length + 2 + 1 from rfl,
                List.drop_succ_cons]
            rw [hdr] at h0
            exact h0.symm
          have hL : simsub ((k, v) :: rest) (c :: t) =
              v ++ simsub ((k, v) :: rest) (t.drop (k.length + 2)) := by
            rw [← hstA]
            exact simsub_token_head ((k, v) :: rest) (k, v) (List.mem_cons_self _ _)
              hkeys_cons hnodup_cons _
          have hsplit : replaceStr (fromToken k) v (c :: t) =
              v ++ replaceStr (fromToken k) v (t.drop (k.length + 2)) := by
            rw [replaceStr_cons, if_pos ⟨hA, fromToken_ne_nil k⟩, fromToken_length,
              show k.length + 3 - 1 = k.length + 2 from rfl]
          rw [hL, hsplit, simsub_append_left rest v ((noForbidden_iff v).mp hv).1]
          rw [ih (t.drop (k.length + 2)) (le_trans (by simp) hlent)]
        · cases hfr : rest.find? (fun e => (fromToken e.1).isPrefixOf (c :: t)) with
          | some e2 =>
            -- some other entry token starts at the head of the subject
            have hmem : e2 ∈ rest := List.mem_of_find?_eq_some hfr
            have hpk2 : (fromToken e2.1).isPrefixOf (c :: t) = true := by
              have h9 := List.find?_some hfr
              exact h9
            have hst : fromToken e2.1 ++ t.drop (e2.1.length + 2) = c :: t := by
              have h0 := eq_append_drop_of_pref (fromToken e2.1) (c :: t)
                ((isPrefixOf_iff _ _).mp hpk2)
              have hdr : (c :: t).drop ((fromToken e2.1).length) =
                  t.drop (e2.1.length + 2) := by
                rw [fromToken_length, show e2.1.length + 3 = e2.1.length + 2 + 1 from rfl,
                  List.drop_succ_cons]
              rw [hdr] at h0
              exact h0.symm
            have hnomatch : ∀ i, i < (fromToken e2.1).length →
                ¬ (fromToken k).isPrefixOf
                  ((fromToken e2.1).drop i ++ t.drop (e2.1.length + 2)) = true := by
              intro i hi
              cases i with
              | zero =>
                rw [List.drop_zero, hst]
                exact hA
              | succ j =>
                intro h0
                obtain ⟨d, z, hdz, hd⟩ := fromToken_drop_head e2.1 (hkeys e2 hmem) (j + 1)
                  (by omega) hi
                rw [hdz, List.cons_append] at h0
                obtain ⟨r, hr⟩ := (isPrefixOf_iff _ _).mp h0
                rw [show fromToken k ++ r = '$' :: (('\x7b' :: (k ++ ['\x7d'])) ++ r) from by
                  simp [fromToken]] at hr
                exact hd (((List.cons.injEq _ _ _ _).mp hr).1).symm
            have hrepl : replaceStr (fromToken k) v (c :: t) =
                fromToken e2.1 ++ replaceStr (fromToken k) v (t.drop (e2.1.length + 2)) := by
              rw [← hst]
              exact replaceStr_append_of_no_match (fromToken k) v (fromToken e2.1) _ hnomatch
            have hL : simsub ((k, v) :: rest) (c :: t) =
                e2.2 ++ simsub ((k, v) :: rest) (t.drop (e2.1.length + 2)) := by
              rw [← hst]
              exact simsub_token_head ((k, v) :: rest) e2 (List.mem_cons_of_mem _ hmem)
                hkeys_cons hnodup_cons _
            have hR : simsub rest (replaceStr (fromToken k) v (c :: t)) =
                e2.2 ++ simsub rest (replaceStr (fromToken k) v
                  (t.drop (e2.1.length + 2))) := by
              rw [hrepl]
              exact simsub_token_head rest e2 hmem hkeys hnodup _
            rw [hL, hR, ih (t.drop (e2.1.length + 2)) (le_trans (by simp) hlent)]
          | none =>
            -- no token starts at the head of the subject
            have hfindC : ((k, v) :: rest).find?
                (fun e => (fromToken e.1).isPrefixOf (c :: t)) = none := by
              rw [List.find?_eq_none]
              intro e3 hm3
              rcases List.mem_cons.mp hm3 with h9 | h9
              · rw [h9]
                exact fun hp => hA hp
              · exact List.find?_eq_none.mp hfr e3 h9
            rw [simsub_cons, hfindC]
            show c :: simsub ((k, v) :: rest) t = _
            have hnomC : ¬ ((fromToken k).isPrefixOf (c :: t) = true ∧ fromToken k ≠ []) :=
              fun h0 => hA h0.1
            rw [replaceStr_cons, if_neg hnomC, simsub_cons]
            have hfind3 : rest.find? (fun e => (fromToken e.1).isPrefixOf
                (c :: replaceStr (fromToken k) v t)) = none := by
              rw [List.find?_eq_none]
              intro e3 hm3 hp3
              have h4 := no_new_token (fromToken k) v e3.1 hv (hinf e3 hm3) c t hp3
              exact List.find?_eq_none.mp hfr e3 hm3 h4
            rw [hfind3]
            show _ = c :: simsub rest (replaceStr (fromToken k) v t)
            rw [ih t hlent]
  exact fun s => main s.length s le_rfl

/-- A mapping is good for order independence when keys and values are free of
forbidden characters, keys are pairwise distinct, and no value occurs as a
substring of any key. -/
def GoodMap (l : List (List Char × List Char)) : Prop :=
  ValidMap l ∧ (l.map Prod.fst).Nodup ∧ ∀ e ∈ l, ∀ e2 ∈ l, ¬ e.2 <:+: e2.1

instance : DecidablePred GoodMap := fun l => by
  unfold GoodMap; infer_instance

theorem foldl_eq_simsub (l : List (List Char × List Char)) (hg : GoodMap l) :
    ∀ T, l.foldl substStep T = simsub l T := by
  induction l with
  | nil => intro T; rw [List.foldl_nil, simsub_empty_map]
  | cons e l2 ih =>
    intro T
    have hnodup2 : ((e :: l2).map Prod.fst).Nodup := hg.2.1
    rw [List.map_cons, List.nodup_cons] at hnodup2
    have hgood2 : GoodMap l2 :=
      ⟨fun kv hkv => hg.1 kv (List.mem_cons_of_mem _ hkv), hnodup2.2,
        fun a ha b hb => hg.2.2 a (List.mem_cons_of_mem _ ha) b (List.mem_cons_of_mem _ hb)⟩
    rw [List.foldl_cons, ih hgood2 (substStep T e)]
    obtain ⟨k, v⟩ := e
    have hcomm := simsub_cons_entry k v l2
      (hg.1 (k, v) (List.mem_cons_self _ _)).1
      (hg.1 (k, v) (List.mem_cons_self _ _)).2
      (fun e2 he2 => (hg.1 e2 (List.mem_cons_of_mem _ he2)).1)
      hnodup2.1 hnodup2.2
      (fun e2 he2 => hg.2.2 (k, v) (List.mem_cons_self _ _) e2 (List.mem_cons_of_mem _ he2))
      T
    exact hcomm.symm

theorem simsub_perm_invariant (l l2 : List (List Char × List Char)) (hperm : l.Perm l2)
    (hkeys : ∀ e ∈ l, NoForbidden e.1) (hnodup : (l.map Prod.fst).Nodup) :
    ∀ s, simsub l s = simsub l2 s := by
  have hkeys2 : ∀ e ∈ l2, NoForbidden e.1 := fun e he => hkeys e (hperm.mem_iff.mpr he)
  have hnodup2 : (l2.map Prod.fst).Nodup := ((hperm.map Prod.fst).nodup_iff).mp hnodup
  have main : ∀ (n : Nat) (s : List Char), s.length ≤ n → simsub l s = simsub l2 s := by
    intro n
    induction n with
    | zero =>
      intro s hs
      have h0 : s = [] := List.eq_nil_of_length_eq_zero (Nat.le_zero.mp hs)
      subst h0
      rw [simsub_nil, simsub_nil]
    | succ n ih =>
      intro s hs
      cases s with
      | nil => rw [simsub_nil, simsub_nil]
      | cons c t =>
        have hlent : t.length ≤ n := Nat.succ_le_succ_iff.mp (by simpa using hs)
        rw [simsub_cons, simsub_cons]
        cases hf : l.find? (fun e => (fromToken e.1).isPrefixOf (c :: t)) with
        | none =>
          have hf2 : l2.find? (fun e => (fromToken e.1).isPrefixOf (c :: t)) = none := by
            rw [List.find?_eq_none]
            intro e he
            exact List.find?_eq_none.mp hf e (hperm.mem_iff.mpr he)
          rw [hf2]
          show c :: simsub l t = c :: simsub l2 t
          rw [ih t hlent]
        | some e =>
          have hmem : e ∈ l := List.mem_of_find?_eq_some hf
          have hpe : (fromToken e.1).isPrefixOf (c :: t) = true := by
            have h9 := List.find?_some hf
            exact h9
          have hf2 : l2.find? (fun e => (fromToken e.1).isPrefixOf (c :: t)) = some e := by
            apply find?_eq_some_of_unique _ l2 e (hperm.mem_iff.mp hmem) hpe
            intro e3 hm3 hp3
            have hkey : e3.1 = e.1 := fromToken_pref_inj e3.1 e.1
              ((noForbidden_iff e3.1).mp (hkeys2 e3 hm3)).2.2
              ((noForbidden_iff e.1).mp (hkeys e hmem)).2.2
              (c :: t) ((isPrefixOf_iff _ _).mp hp3) ((isPrefixOf_iff _ _).mp hpe)
            exact entry_inj_of_nodup_keys l2 hnodup2 e3 hm3 e (hperm.mem_iff.mp hmem) hkey
          rw [hf2]
          show e.2 ++ simsub l (t.drop (e.1.length + 2)) =
            e.2 ++ simsub l2 (t.drop (e.1.length + 2))
          rw [ih (t.drop (e.1.length + 2)) (le_trans (by simp) hlent)]
  exact fun s => main s.length s le_rfl

/-- C1 (amended): the result of `substitute` is the same for every processing
order of the mapping entries whenever keys are pairwise distinct, keys and
values are free of forbidden characters, and additionally no value occurs as
a contiguous substring of any key.  (Without the last condition a replaced
value can combine with surrounding template text into another key's token;
see the counterexample.) -/
theorem substitute_order_independent (T : List Char)
    (l l2 : List (List Char × List Char)) (hperm : l.Perm l2) (hg : GoodMap l) :
    substitute T l = substitute T l2 := by
  have hg2 : GoodMap l2 :=
    ⟨fun kv hkv => hg.1 kv (hperm.mem_iff.mpr hkv),
      ((hperm.map Prod.fst).nodup_iff).mp hg.2.1,
      fun a ha b hb => hg.2.2 a (hperm.mem_iff.mpr ha) b (hperm.mem_iff.mpr hb)⟩
  rw [substitute_eq_foldl T l hg.1, substitute_eq_foldl T l2 hg2.1]
  rw [foldl_eq_simsub l hg T, foldl_eq_simsub l2 hg2 T]
  rw [simsub_perm_invariant l l2 hperm (fun e he => (hg.1 e he).1) hg.2.1 T]

theorem substitute_order_independent_witness :
    substitute "x".data [("A".data, "1".data), ("B".data, "2".data)] =
      substitute "x".data [("B".data, "2".data), ("A".data, "1".data)] :=
  substitute_order_independent "x".data
    [("A".data, "1".data), ("B".data, "2".data)]
    [("B".data, "2".data), ("A".data, "1".data)]
    (List.Perm.swap ("B".data, "2".data) ("A".data, "1".data) [])
    (by decide)

/-- C1 (counterexample to the claim as stated): the mapping maps key B to
value ab and key ab to value X; no key and no value contains a forbidden
character, yet on the template consisting of a token nested inside another
marker the two processing orders give different outputs (replacing the inner
token first creates the token of the other key). -/
theorem substitute_order_dependent_example :
    List.Perm [("B".data, "ab".data), ("ab".data, "X".data)]
      [("ab".data, "X".data), ("B".data, "ab".data)] ∧
    ValidMap [("B".data, "ab".data), ("ab".data, "X".data)] ∧
    substitute "$\x7b$\x7bB\x7d\x7d".data [("B".data, "ab".data), ("ab".data, "X".data)] =
      .ok "X".data ∧
    substitute "$\x7b$\x7bB\x7d\x7d".data [("ab".data, "X".data), ("B".data, "ab".data)] =
      .ok "$\x7bab\x7d".data ∧
    ("X".data : List Char) ≠ "$\x7bab\x7d".data := by
  refine ⟨List.Perm.swap ("ab".data, "X".data) ("B".data, "ab".data) [], by decide,
    rfl, rfl, by decide⟩

/-! ### is_templated monotonicity (C8) -/

theorem not_occurs_of_findSub_none (q s : List Char) (h : findSub q s = none) :
    ¬ q <:+: s := by
  intro hocc
  obtain ⟨i, hp⟩ := (occurs_iff_drop q s).mp hocc
  exact (findSub_eq_none_iff q s).mp h i ((isPrefixOf_iff _ _).mpr hp)

theorem within_of_pref_within (q p s : List Char) (h1 : q <+: p) (h2 : p <:+: s) :
    q <:+: s := by
  obtain ⟨r, hr⟩ := h1
  obtain ⟨a, b, hab⟩ := h2
  exact ⟨a, r ++ b, by rw [← hab, ← hr]; simp [List.append_assoc]⟩

theorem foldl_substStep_id (l : List (List Char × List Char)) (T : List Char)
    (h : ∀ kv ∈ l, ¬ (fromToken kv.1) <:+: T) : l.foldl substStep T = T := by
  induction l with
  | nil => rfl
  | cons kv l2 ih =>
    rw [List.foldl_cons]
    have hstep : substStep T kv = T :=
      replaceStr_of_not_occurs (fromToken kv.1) kv.2 T (h kv (List.mem_cons_self _ _))
    rw [hstep]
    exact ih (fun kv2 h2 => h kv2 (List.mem_cons_of_mem _ h2))

theorem substGo_ok_elim (l : List (List Char × List Char)) :
    ∀ T out, substGo l T = .ok out → out = l.foldl substStep T := by
  induction l with
  | nil =>
    intro T out h
    injection h with h3
    rw [List.foldl_nil]
    exact h3.symm
  | cons kv l2 ih =>
    intro T out h
    obtain ⟨k, v⟩ := kv
    simp only [substGo] at h
    cases hk : validate k keyKind with
    | error e1 => rw [hk] at h; simp [Except.bind] at h
    | ok u =>
      cases u
      rw [hk] at h
      simp only [Except.bind] at h
      cases hv : validate v valueKind with
      | error e2 => rw [hv] at h; simp at h
      | ok u =>
        cases u
        rw [hv] at h
        rw [List.foldl_cons]
        exact ih _ out h

theorem singleton_pref_elim (c : Char) (z : List Char)
    (h : [c].isPrefixOf z = true) : ∃ z2, z = c :: z2 := by
  cases z with
  | nil => simp [List.isPrefixOf] at h
  | cons d z2 =>
    obtain ⟨r, hr⟩ := (isPrefixOf_iff _ _).mp h
    rw [List.cons_append] at hr
    have h2 := (List.cons.injEq _ _ _ _).mp hr
    exact ⟨z2, by rw [h2.1]⟩

theorem isPrefixOf_append_of_length_le :
    ∀ (q z X : List Char), q.length ≤ z.length →
      (q.isPrefixOf (z ++ X)) = (q.isPrefixOf z) := by
  intro q
  induction q with
  | nil =>
    intro z X _
    have hnil : ∀ y : List Char, ([] : List Char).isPrefixOf y = true :=
      fun y => (isPrefixOf_iff _ _).mpr (List.nil_prefix)
    rw [hnil, hnil]
  | cons a q2 ih =>
    intro z X hlen
    cases z with
    | nil => simp at hlen
    | cons b z2 =>
      rw [List.cons_append]
      show (a == b && q2.isPrefixOf (z2 ++ X)) = (a == b && q2.isPrefixOf z2)
      rw [ih z2 X (by simpa using hlen)]

theorem isPrefixOf_of_take (q z : List Char) (r : Nat)
    (h : q.isPrefixOf (z.take r) = true) : q.isPrefixOf z = true :=
  (isPrefixOf_iff _ _).mpr (((isPrefixOf_iff _ _).mp h).trans (List.take_prefix r z))

theorem isPrefixOf_trans_prefix (q p z : List Char) (hqp : q <+: p)
    (h : p.isPrefixOf z = true) : q.isPrefixOf z = true :=
  (isPrefixOf_iff _ _).mpr (hqp.trans ((isPrefixOf_iff _ _).mp h))

/-- C8 (amended): a successful substitution never turns a non-templated
template into a templated output: if `is_templated` holds of the output it
already held of the template.  (The stronger claim that no new key token can
appear in the output is false; see the counterexample.) -/
theorem substitute_is_templated_monotone (T : List Char)
    (l : List (List Char × List Char)) (out : List Char)
    (hok : substitute T l = .ok out) (htem : is_templated out = true) :
    is_templated T = true := by
  rcases Bool.eq_false_or_eq_true (is_templated T) with hT0 | hT0
  · exact hT0
  · exfalso
    -- the output of a successful substitution
    have hout : out = l.foldl substStep T := by
      cases l with
      | nil =>
        have h8 : (Except.ok T : Except Error (List Char)) = .ok out := hok
        injection h8 with h9
        rw [List.foldl_nil]
        exact h9.symm
      | cons kv rest =>
        apply substGo_ok_elim (kv :: rest) T out
        simpa [substitute] using hok
    have hfalse : is_templated out = false := by
      cases h1 : findSub ['$', '\x7b'] T with
      | none =>
        -- no opening marker in the template: nothing is ever replaced
        have hnone : ∀ kv ∈ l, ¬ (fromToken kv.1) <:+: T := by
          intro kv _ hocc
          exact not_occurs_of_findSub_none _ _ h1
            (within_of_pref_within ['$', '\x7b'] (fromToken kv.1) T
              ⟨kv.1 ++ ['\x7d'], rfl⟩ hocc)
        rw [hout, foldl_substStep_id l T hnone]
        exact hT0
      | some s0 =>
        cases h2 : findSub ['\x7d'] T with
        | none =>
          -- no closing brace in the template: nothing is ever replaced
          have hCnm : '\x7d' ∉ T := by
            intro hm
            have h3 := (containsSub_singleton '\x7d' T).mpr hm
            unfold containsSub at h3
            rw [h2] at h3
            simp at h3
          have hnone : ∀ kv ∈ l, ¬ (fromToken kv.1) <:+: T := by
            intro kv _ hocc
            obtain ⟨a, b, hab⟩ := hocc
            exact hCnm (by rw [← hab]; simp [fromToken])
          rw [hout, foldl_substStep_id l T hnone]
          exact hT0
        | some e0 =>
          -- the first closing brace precedes the first opening marker
          have hle : e0 ≤ s0 := by
            unfold is_templated at hT0
            rw [h1, h2] at hT0
            simp at hT0
            omega
          obtain ⟨hs0p, hs0min⟩ := (findSub_eq_some_iff _ T s0).mp h1
          obtain ⟨he0p, he0min⟩ := (findSub_eq_some_iff _ T e0).mp h2
          obtain ⟨z0, hz0⟩ := singleton_pref_elim '\x7d' (T.drop e0) he0p
          have he0lt : e0 < T.length := by
            have h3 := congrArg List.length hz0
            rw [List.length_drop] at h3
            simp at h3
            omega
          have hPlen : (T.take (e0 + 1)).length = e0 + 1 := by
            rw [List.length_take]
            omega
          have hPdrop : ∀ j, j ≤ e0 →
              (T.take (e0 + 1)).drop j = (T.drop j).take (e0 + 1 - j) :=
            fun j _ => List.drop_take (e0 + 1) j T
          have hPdropE0 : (T.take (e0 + 1)).drop e0 = ['\x7d'] := by
            rw [hPdrop e0 le_rfl, hz0]
            simp
          have hTnoD : ∀ j, j ≤ e0 → ¬ ['$', '\x7b'].isPrefixOf (T.drop j) = true := by
            intro j hj h0
            by_cases hjs : j < s0
            · exact hs0min j hjs h0
            · have hj2 : j = e0 := by omega
              subst hj2
              rw [hz0] at h0
              simp [List.isPrefixOf] at h0
          have headSafeD : ∀ (X : List Char) (j : Nat), j ≤ e0 →
              ¬ ['$', '\x7b'].isPrefixOf ((T.take (e0 + 1) ++ X).drop j) = true := by
            intro X j hj h0
            rw [List.drop_append_of_le_length (by omega)] at h0
            rcases Nat.lt_or_ge j e0 with hlt | hge
            · rw [isPrefixOf_append_of_length_le ['$', '\x7b'] ((T.take (e0 + 1)).drop j) X
                (by rw [List.length_drop, hPlen]; simp; omega)] at h0
              rw [hPdrop j hj] at h0
              exact hTnoD j hj (isPrefixOf_of_take _ _ _ h0)
            · have hje : j = e0 := by omega
              subst hje
              rw [hPdropE0] at h0
              simp [List.isPrefixOf] at h0
          have headSafeC : ∀ (X : List Char) (j : Nat), j < e0 →
              ¬ ['\x7d'].isPrefixOf ((T.take (e0 + 1) ++ X).drop j) = true := by
            intro X j hj h0
            rw [List.drop_append_of_le_length (by omega)] at h0
            rw [isPrefixOf_append_of_length_le ['\x7d'] ((T.take (e0 + 1)).drop j) X
              (by rw [List.length_drop, hPlen]; simp; omega)] at h0
            rw [hPdrop j (by omega)] at h0
            exact he0min j hj (isPrefixOf_of_take _ _ _ h0)
          have foldPres : ∀ (m : List (List Char × List Char)) (X : List Char),
              m.foldl substStep (T.take (e0 + 1) ++ X) =
                T.take (e0 + 1) ++ m.foldl substStep X := by
            intro m
            induction m with
            | nil => intro X; rfl
            | cons kv m2 ih =>
              intro X
              rw [List.foldl_cons, List.foldl_cons]
              have hstep : substStep (T.take (e0 + 1) ++ X) kv =
                  T.take (e0 + 1) ++ substStep X kv := by
                show replaceStr (fromToken kv.1) kv.2 (T.take (e0 + 1) ++ X) =
                  T.take (e0 + 1) ++ replaceStr (fromToken kv.1) kv.2 X
                apply replaceStr_append_of_no_match
                intro i hi h0
                have h3 : ['$', '\x7b'].isPrefixOf ((T.take (e0 + 1)).drop i ++ X) = true :=
                  isPrefixOf_trans_prefix ['$', '\x7b'] (fromToken kv.1) _
                    ⟨kv.1 ++ ['\x7d'], rfl⟩ h0
                rw [← List.drop_append_of_le_length (le_of_lt hi)] at h3
                exact headSafeD X i
                  (by have h9 := hi; rw [hPlen] at h9; omega) h3
              rw [hstep, ih]
          have hout2 : out = T.take (e0 + 1) ++
              l.foldl substStep (T.drop (e0 + 1)) := by
            rw [hout]
            conv_lhs => rw [← List.take_append_drop (e0 + 1) T]
            exact foldPres l (T.drop (e0 + 1))
          rw [hout2]
          have hfindC : findSub ['\x7d']
              (T.take (e0 + 1) ++ l.foldl substStep (T.drop (e0 + 1))) = some e0 := by
            apply (findSub_eq_some_iff _ _ e0).mpr
            constructor
            · rw [List.drop_append_of_le_length (by omega), hPdropE0]
              exact (isPrefixOf_iff _ _).mpr (List.prefix_append _ _)
            · intro j hj
              exact headSafeC _ j hj
          unfold is_templated
          rw [hfindC]
          cases hD : findSub ['$', '\x7b']
              (T.take (e0 + 1) ++ l.foldl substStep (T.drop (e0 + 1))) with
          | none => rfl
          | some s1 =>
            have hs1 := (findSub_eq_some_iff _ _ s1).mp hD
            have hbig : ¬ s1 ≤ e0 := fun hle2 => headSafeD _ s1 hle2 hs1.1
            show decide (s1 < e0) = false
            simp
            omega
    rw [hfalse] at htem
    exact absurd htem (by decide)

theorem substitute_is_templated_monotone_witness :
    is_templated "$\x7bA\x7d$\x7bB\x7d".data = true :=
  substitute_is_templated_monotone "$\x7bA\x7d$\x7bB\x7d".data [("A".data, "x".data)]
    "x$\x7bB\x7d".data (by rfl) (by rfl)

/-- C8 (counterexample to the claim as stated): substituting the valid
mapping with key ab mapping to X and key B mapping to ab into the template
consisting of a token for B nested inside another marker produces an output
containing the token for key ab, which was not present in the template: the
replaced value combines with surrounding template delimiters into a new
token. -/
theorem substitute_creates_token_example :
    ValidMap [("ab".data, "X".data), ("B".data, "ab".data)] ∧
    ("ab".data : List Char) ∈
      ([(("ab".data : List Char), ("X".data : List Char)),
        ("B".data, "ab".data)]).map Prod.fst ∧
    ¬ (fromToken "ab".data) <:+: "$\x7b$\x7bB\x7d\x7d".data ∧
    substitute "$\x7b$\x7bB\x7d\x7d".data [("ab".data, "X".data), ("B".data, "ab".data)] =
      .ok "$\x7bab\x7d".data ∧
    (fromToken "ab".data) <:+: "$\x7bab\x7d".data := by
  refine ⟨by decide, by decide, by decide, rfl, by decide⟩

end Envsubst
